import Mathlib

/-!
Verification of the workflow expansion and execution engine described by the
repository's specification.  The repository itself is a tutorial notebook
(`iteration.ipynb`) that exercises an external engine; the notebook only
contains the executor functions (`square_func`, `power_func`) and the observed
inputs/outputs.  The engine (map expansion, iterable expansion, graph
connection, execution coordination, directory-key derivation) is therefore
modelled from the specification, while executors and concrete values come from
the notebook source.
-/

set_option autoImplicit false

/-! ### Map-node model -/

/-- An input value bound on a node: either a single scalar or a list.
Modelled from the spec: a MapNode's iterfields are "bound to a list" while
other inputs keep plain values. -/
inductive Binding (α : Type) where
  | scalar : α → Binding α
  | list : List α → Binding α
deriving DecidableEq

/-- Modelled from the spec: a map Node has declared input fields, a map
annotation (`iterfield` names), input bindings, and an executor that consumes
one fully-resolved set of inputs. -/
structure MapNode (α β : Type) where
  inFields : List String
  iterfield : List String
  bindings : String → Binding α
  executor : (String → Binding α) → β

/-- The list bound to a field, when the field is bound to a list. -/
def iterListOf {α β : Type} (n : MapNode α β) (f : String) : Option (List α) :=
  match n.bindings f with
  | .list l => some l
  | .scalar _ => none

/-- Expansion-time error, from the spec's error taxonomy. -/
inductive MapError where
  | IterfieldLengthMismatchError
deriving DecidableEq

/-- The lists bound to the node's iterfields. -/
def iterLists {α β : Type} (n : MapNode α β) : List (List α) :=
  n.iterfield.filterMap (iterListOf n)

/-- Modelled from the spec: map expansion validates that every iterfield bound
to a list has the common length K, then produces K single-element invocation
environments; invocation `i` receives the i-th element of every iterfield and
the unchanged value of every non-iterfield input.  Mismatched lengths fail with
`IterfieldLengthMismatchError` before any executor is consulted. -/
def mapExpand {α β : Type} [Inhabited α] (n : MapNode α β) :
    Except MapError (List (String → Binding α)) :=
  match iterLists n with
  | [] => .ok [n.bindings]
  | l0 :: rest =>
    if rest.all (fun l => decide (l.length = l0.length)) then
      .ok ((List.range l0.length).map fun i => fun f =>
        if f ∈ n.iterfield then
          match iterListOf n f with
          | some l => Binding.scalar (l.getD i default)
          | none => n.bindings f
        else n.bindings f)
    else .error .IterfieldLengthMismatchError

/-- Running a map node: expand, invoke the executor on each of the K
environments, and reassemble the outputs, preserving index order, into one
list-valued output. -/
def mapRun {α β : Type} [Inhabited α] (n : MapNode α β) : Except MapError (List β) :=
  (mapExpand n).map (List.map n.executor)

/-- The invocation environments of a successful expansion. -/
def mapEnvs {α β : Type} [Inhabited α] (n : MapNode α β) : List (String → Binding α) :=
  ((mapExpand n).toOption).getD []

/-- From the source (`iteration.ipynb`, `power_func`): `x ** y` on Python
integers; on the naturals used in the notebook this is `x ^ y`, with
`0 ** 0 = 1`. -/
def power_func (x y : Nat) : Nat := x ^ y

/-- Executor wrapping `power_func`, reading the resolved `x` and `y` inputs. -/
def powerExec (env : String → Binding Nat) : Nat :=
  match env "x", env "y" with
  | .scalar x, .scalar y => power_func x y
  | _, _ => 0

/-- From the source: `MapNode(power, name="power", iterfield=["x", "y"])` with
`x = range(4)` and `y = range(4)`. -/
def power_node_xy : MapNode Nat Nat :=
  { inFields := ["x", "y"]
    iterfield := ["x", "y"]
    bindings := fun f =>
      if f = "x" then .list [0, 1, 2, 3]
      else if f = "y" then .list [0, 1, 2, 3]
      else .scalar 0
    executor := powerExec }

/-- From the source: `MapNode(power, name="power", iterfield=["x"])` with
`x = range(4)` and the non-iterfield input `y = 3`. -/
def power_node_x : MapNode Nat Nat :=
  { inFields := ["x", "y"]
    iterfield := ["x"]
    bindings := fun f =>
      if f = "x" then .list [0, 1, 2, 3]
      else if f = "y" then .scalar 3
      else .scalar 0
    executor := powerExec }

/-- C1: For the map node with iterfields `x = [0,1,2,3]`, `y = [0,1,2,3]` and
executor `power(x,y) = x ** y`, map expansion produces exactly 4 invocations
(element-wise pairing, not a Cartesian product of 16), invocation `i` receives
`x[i]` and `y[i]`, and the reassembled output list is `[1, 1, 4, 27]`. -/
theorem mapnode_pairs_elementwise :
    mapRun power_node_xy = .ok [1, 1, 4, 27] ∧
    (mapEnvs power_node_xy).length = 4 ∧
    ∀ i, i < 4 →
      ((mapEnvs power_node_xy).getD i (fun _ => .scalar 0)) "x" = Binding.scalar i ∧
      ((mapEnvs power_node_xy).getD i (fun _ => .scalar 0)) "y" = Binding.scalar i := by
  refine ⟨rfl, by decide, ?_⟩
  decide

/-- C5: For the map node with iterfield `x = [0,1,2,3]`, non-iterfield input
`y = 3`, and executor `power(x,y) = x ** y`, each of the 4 invocations receives
`x[i]` together with the unchanged broadcast value `y = 3`, and the reassembled
output list is `[0, 1, 8, 27]`. -/
theorem mapnode_broadcasts_noniterfield :
    mapRun power_node_x = .ok [0, 1, 8, 27] ∧
    (mapEnvs power_node_x).length = 4 ∧
    ∀ i, i < 4 →
      ((mapEnvs power_node_x).getD i (fun _ => .scalar 0)) "x" = Binding.scalar i ∧
      ((mapEnvs power_node_x).getD i (fun _ => .scalar 0)) "y" = Binding.scalar 3 := by
  refine ⟨rfl, by decide, ?_⟩
  decide

/-- Any list in `iterLists n` has the length of the head list once the
expansion's equal-length check passes. -/
theorem iterLists_length_eq {α β : Type} (n : MapNode α β) (l0 : List α)
    (rest : List (List α)) (h0 : iterLists n = l0 :: rest)
    (hall : rest.all (fun l => decide (l.length = l0.length)) = true) :
    ∀ l ∈ iterLists n, l.length = l0.length := by
  intro l hl
  rw [h0] at hl
  rcases List.mem_cons.mp hl with h | h
  · rw [h]
  · exact of_decide_eq_true (List.all_eq_true.mp hall l h)

/-- C4: For every map node whose iterfields are bound to lists of unequal
lengths, expansion fails with `IterfieldLengthMismatchError`, and the node
fails the same way for every executor whatsoever — so no executor is invoked
and no partial or truncated pairing is produced. -/
theorem mismatched_iterfields_abort {α β : Type} [Inhabited α] (n : MapNode α β)
    (f g : String) (lf lg : List α)
    (hf : f ∈ n.iterfield) (hg : g ∈ n.iterfield)
    (hlf : iterListOf n f = some lf) (hlg : iterListOf n g = some lg)
    (hne : lf.length ≠ lg.length) :
    mapExpand n = .error .IterfieldLengthMismatchError ∧
    ∀ ex : (String → Binding α) → β,
      mapRun { n with executor := ex } = .error .IterfieldLengthMismatchError := by
  have hmf : lf ∈ iterLists n := List.mem_filterMap.mpr ⟨f, hf, hlf⟩
  have hmg : lg ∈ iterLists n := List.mem_filterMap.mpr ⟨g, hg, hlg⟩
  have hmain : mapExpand n = .error .IterfieldLengthMismatchError := by
    unfold mapExpand
    cases h0 : iterLists n with
    | nil => rw [h0] at hmf; exact absurd hmf (List.not_mem_nil lf)
    | cons l0 rest =>
      have hcond : rest.all (fun l => decide (l.length = l0.length)) = false := by
        by_contra hc
        have hall := eq_true_of_ne_false fun hfalse => hc hfalse
        have h1 := iterLists_length_eq n l0 rest h0 hall lf hmf
        have h2 := iterLists_length_eq n l0 rest h0 hall lg hmg
        exact hne (h1.trans h2.symm)
      simp [hcond]
  refine ⟨hmain, fun ex => ?_⟩
  have hexp : mapExpand { n with executor := ex } = mapExpand n := rfl
  simp only [mapRun, hexp, hmain]
  rfl

/-- From the source's mismatch scenario: a power map node whose iterfields are
bound to lists of lengths 4 and 3. -/
def power_node_bad : MapNode Nat Nat :=
  { inFields := ["x", "y"]
    iterfield := ["x", "y"]
    bindings := fun h =>
      if h = "x" then .list [0, 1, 2, 3]
      else if h = "y" then .list [0, 1, 2]
      else .scalar 0
    executor := powerExec }

/-- Witness for C4: the concrete node with `x` of length 4 and `y` of length 3
aborts with `IterfieldLengthMismatchError` for every executor. -/
theorem mismatched_iterfields_abort_witness :
    mapExpand power_node_bad = .error .IterfieldLengthMismatchError ∧
    ∀ ex : (String → Binding Nat) → Nat,
      mapRun { power_node_bad with executor := ex } =
        .error .IterfieldLengthMismatchError :=
  mismatched_iterfields_abort power_node_bad "x" "y" [0, 1, 2, 3] [0, 1, 2]
    (by decide) (by decide) rfl rfl (by decide)

/-! ### Graph model -/

/-- Structural and expansion-time errors, from the spec's error taxonomy. -/
inductive EngineError where
  | DuplicateNodeNameError
  | UnknownFieldError
  | DuplicateBindingError
  | CycleError
deriving DecidableEq

/-- A port-to-port edge: `(source node, output field)` to
`(destination node, input field)`. -/
structure GEdge where
  src : String
  srcField : String
  dst : String
  dstField : String
deriving DecidableEq

/-- A named node with declared input and output fields. -/
structure GNode where
  name : String
  inFields : List String
  outFields : List String
deriving DecidableEq

/-- Modelled from the spec: a Graph owns its nodes, its edges, and the set of
`(node, field)` pairs carrying a direct input binding. -/
structure Graph where
  nodes : List GNode
  edges : List GEdge
  bindings : List (String × String)
deriving DecidableEq

/-- The node with a given name, if declared. -/
def findNode (g : Graph) (n : String) : Option GNode :=
  g.nodes.find? (fun x => decide (x.name = n))

/-- Direct successors of a node along the graph's edges. -/
def succs (es : List GEdge) (v : String) : List String :=
  (es.filter (fun e => decide (e.src = v))).map (·.dst)

/-- Fuel-bounded reachability along directed edges (reflexive). -/
def reachesF (es : List GEdge) : Nat → String → String → Bool
  | 0, a, b => decide (a = b)
  | fuel + 1, a, b =>
    decide (a = b) || (succs es a).any (fun c => reachesF es fuel c b)

/-- Modelled from the spec: incremental reachability used by the cycle check —
whether `b` is reachable from `a` following the existing edges. -/
def reaches (es : List GEdge) (a b : String) : Bool :=
  reachesF es es.length a b

/-- Modelled from the spec: `connect(src, out_field, dst, in_field)` fails with
`UnknownFieldError` if either field is undeclared, `DuplicateBindingError` if
the input already has an incoming edge or a direct binding, and `CycleError` if
the new edge would create a cycle (checked via reachability from `dst` back to
`src`); on failure the graph is returned unchanged. -/
def connect (g : Graph) (src outF dst inF : String) :
    Graph × Option EngineError :=
  match findNode g src, findNode g dst with
  | some ns, some nd =>
    if outF ∈ ns.outFields ∧ inF ∈ nd.inFields then
      if g.edges.any (fun e => decide (e.dst = dst ∧ e.dstField = inF))
          || g.bindings.any (fun b => decide (b.1 = dst ∧ b.2 = inF)) then
        (g, some .DuplicateBindingError)
      else if reaches g.edges dst src then
        (g, some .CycleError)
      else
        ({ g with edges := g.edges ++ [⟨src, outF, dst, inF⟩] }, none)
    else (g, some .UnknownFieldError)
  | _, _ => (g, some .UnknownFieldError)

/-- C6: For every graph and every `connect(src, out_field, dst, in_field)` call
whose fields are declared and whose input port is free, if the new edge would
create a cycle — decided by reachability from `dst` back to `src` — the call
fails with `CycleError` and returns the graph unmodified: no node, edge, or
binding changes. -/
theorem connect_cycle_atomic (g : Graph) (src outF dst inF : String)
    (ns nd : GNode)
    (hs : findNode g src = some ns) (hd : findNode g dst = some nd)
    (ho : outF ∈ ns.outFields) (hi : inF ∈ nd.inFields)
    (hfree : (g.edges.any (fun e => decide (e.dst = dst ∧ e.dstField = inF))
        || g.bindings.any (fun b => decide (b.1 = dst ∧ b.2 = inF))) = false)
    (hcyc : reaches g.edges dst src = true) :
    connect g src outF dst inF = (g, some EngineError.CycleError) := by
  have h12 := Bool.or_eq_false_iff.mp hfree
  unfold connect
  rw [hs, hd]
  simp [ho, hi, hcyc]
  refine ⟨fun e he h1 h2 => ?_, fun hb => ?_⟩
  · have h := List.any_eq_false.mp h12.1 e he
    simp [h1, h2] at h
  · have h := List.any_eq_false.mp h12.2 (dst, inF) hb
    simp at h

/-- A two-node graph containing the edge `A.o → B.i`. -/
def demo_graph : Graph :=
  { nodes := [⟨"A", ["i", "i2"], ["o"]⟩, ⟨"B", ["i", "i2"], ["o"]⟩]
    edges := [⟨"A", "o", "B", "i"⟩]
    bindings := [] }

/-- Witness for C6: connecting `B.o → A.i2` in `demo_graph` would close the
cycle `A → B → A`, so the call fails with `CycleError` and returns the graph
unchanged. -/
theorem connect_cycle_atomic_witness :
    connect demo_graph "B" "o" "A" "i2" =
      (demo_graph, some EngineError.CycleError) :=
  connect_cycle_atomic demo_graph "B" "o" "A" "i2"
    ⟨"B", ["i", "i2"], ["o"]⟩ ⟨"A", ["i", "i2"], ["o"]⟩
    rfl rfl (by decide) (by decide) (by decide) (by decide)

/-! ### Directory keys -/

/-- From the source's directory listing (`smoothflow/_mri_file_..Users..`…):
candidate values are sanitized to a filesystem-safe token by replacing each
path separator with the two characters `..`. -/
def sanitize (s : String) : String :=
  String.mk (s.data.flatMap fun c => if c = '/' then ['.', '.'] else [c])

/-- Decimal digits of a natural number, least significant first, with explicit
fuel so evaluation is structural. -/
def digitsAux : Nat → Nat → List Nat
  | 0, _ => []
  | fuel + 1, m => if m = 0 then [] else m % 10 :: digitsAux fuel (m / 10)

/-- Decimal digits of `m`, least significant first. -/
def decDigits (m : Nat) : List Nat := digitsAux m m

/-- Decimal rendering of a natural number (the numeric discriminator). -/
def decNumeral (m : Nat) : String :=
  String.mk (((decDigits m).reverse).map Nat.digitChar)

/-- Decoding of a least-significant-first digit list. -/
def undigits : List Nat → Nat
  | [] => 0
  | d :: ds => d + 10 * undigits ds

/-- Candidate directory keys for one sanitized token: the token itself, then
the token with a numeric discriminator appended. -/
def candKey (base : String) : Nat → String
  | 0 => base
  | k + 1 => base ++ "." ++ decNumeral (k + 1)

/-- Modelled from the spec: the key actually used for a token is the first
candidate not already taken by a sibling instance, so distinct candidate
values sharing a sanitized token still get unequal keys. -/
def freshKey (base : String) (used : List String) : String :=
  match (List.range (used.length + 1)).find?
      (fun k => !decide (candKey base k ∈ used)) with
  | some k => candKey base k
  | none => base

/-- Assign a key to each token in order, remembering the keys already used. -/
def assignKeys : List String → List String → List String
  | [], _ => []
  | b :: bs, used => freshKey b used :: assignKeys bs (freshKey b used :: used)

/-- From the source's directory listing: the per-instance token is an
underscore, the iterated field name, an underscore, and the sanitized
candidate value. -/
def tagToken (f w : String) : String := "_" ++ f ++ "_" ++ sanitize w

/-- Directory keys for an iterated field over a list of candidate values. -/
def dirKeys (f : String) (vals : List String) : List String :=
  assignKeys (vals.map (tagToken f)) []

theorem undigits_digitsAux : ∀ fuel m, m ≤ fuel → undigits (digitsAux fuel m) = m := by
  intro fuel
  induction fuel with
  | zero => intro m hm; interval_cases m; rfl
  | succ fuel ih =>
    intro m hm
    by_cases h0 : m = 0
    · simp [digitsAux, h0, undigits]
    · have hpos : 0 < m := Nat.pos_of_ne_zero h0
      have hdiv : m / 10 ≤ fuel := by
        have := Nat.div_lt_self hpos (by omega : 1 < 10)
        omega
      simp only [digitsAux, h0, if_false, undigits, ih (m / 10) hdiv]
      exact Nat.mod_add_div m 10

theorem digitsAux_lt_ten : ∀ fuel m d, d ∈ digitsAux fuel m → d < 10 := by
  intro fuel
  induction fuel with
  | zero => intro m d hd; simp [digitsAux] at hd
  | succ fuel ih =>
    intro m d hd
    by_cases h0 : m = 0
    · simp [digitsAux, h0] at hd
    · simp only [digitsAux, h0, if_false, List.mem_cons] at hd
      rcases hd with h | h
      · rw [h]; exact Nat.mod_lt m (by omega)
      · exact ih (m / 10) d h

theorem decDigits_inj {a b : Nat} (h : decDigits a = decDigits b) : a = b := by
  have ha : undigits (decDigits a) = a := undigits_digitsAux a a (Nat.le_refl a)
  have hb : undigits (decDigits b) = b := undigits_digitsAux b b (Nat.le_refl b)
  rw [← ha, ← hb, h]

theorem digitChar_inj_lt : ∀ a : Nat, a < 10 → ∀ b : Nat, b < 10 →
    Nat.digitChar a = Nat.digitChar b → a = b := by decide

theorem map_digitChar_inj : ∀ l1 l2 : List Nat, (∀ d ∈ l1, d < 10) →
    (∀ d ∈ l2, d < 10) → l1.map Nat.digitChar = l2.map Nat.digitChar →
    l1 = l2 := by
  intro l1
  induction l1 with
  | nil =>
    intro l2 _ _ h
    cases l2 with
    | nil => rfl
    | cons b bs => simp at h
  | cons a as ih =>
    intro l2 h1 h2 h
    cases l2 with
    | nil => simp at h
    | cons b bs =>
      simp only [List.map_cons, List.cons.injEq] at h
      have hab : a = b :=
        digitChar_inj_lt a (h1 a (List.mem_cons_self a as))
          b (h2 b (List.mem_cons_self b bs)) h.1
      have htl : as = bs :=
        ih bs (fun d hd => h1 d (List.mem_cons_of_mem a hd))
          (fun d hd => h2 d (List.mem_cons_of_mem b hd)) h.2
      rw [hab, htl]

theorem decNumeral_inj {a b : Nat} (h : decNumeral a = decNumeral b) : a = b := by
  have hdata := congrArg String.data h
  simp only [decNumeral] at hdata
  have hmap := List.reverse_injective
    (map_digitChar_inj (decDigits a).reverse (decDigits b).reverse
      (fun d hd => digitsAux_lt_ten a a d (List.mem_reverse.mp hd))
      (fun d hd => digitsAux_lt_ten b b d (List.mem_reverse.mp hd)) hdata)
  exact decDigits_inj hmap

theorem candKey_injective (base : String) : Function.Injective (candKey base) := by
  intro j k h
  match j, k with
  | 0, 0 => rfl
  | 0, k + 1 =>
    exfalso
    have hdata := congrArg String.data h
    simp only [candKey, String.data_append] at hdata
    have := congrArg List.length hdata
    simp at this
  | j + 1, 0 =>
    exfalso
    have hdata := congrArg String.data h
    simp only [candKey, String.data_append] at hdata
    have := congrArg List.length hdata
    simp at this
  | j + 1, k + 1 =>
    have hdata := congrArg String.data h
    simp only [candKey, String.data_append, List.append_assoc] at hdata
    have := List.append_cancel_left hdata
    have := List.append_cancel_left this
    have hnum : decNumeral (j + 1) = decNumeral (k + 1) := String.ext this
    have := decNumeral_inj hnum
    omega

theorem freshKey_not_mem (base : String) (used : List String) :
    freshKey base used ∉ used := by
  unfold freshKey
  cases hfind : (List.range (used.length + 1)).find?
      (fun k => !decide (candKey base k ∈ used)) with
  | some k =>
    have hp := List.find?_some hfind
    simp only [Bool.not_eq_true'] at hp
    simp only [hp]
    exact of_decide_eq_false hp
  | none =>
    exfalso
    have hall := List.find?_eq_none.mp hfind
    have hmem : ∀ k ∈ List.range (used.length + 1), candKey base k ∈ used := by
      intro k hk
      have := hall k hk
      simp only [Bool.not_eq_true', Bool.not_eq_false] at this
      exact of_decide_eq_true this
    have hnd : ((List.range (used.length + 1)).map (candKey base)).Nodup :=
      (List.nodup_range (used.length + 1)).map (candKey_injective base)
    have hsub : ((List.range (used.length + 1)).map (candKey base)) ⊆ used := by
      intro x hx
      rcases List.mem_map.mp hx with ⟨k, hk, hkx⟩
      rw [← hkx]
      exact hmem k hk
    have hle := (hnd.subperm hsub).length_le
    simp at hle

theorem freshKey_of_not_mem {b : String} {used : List String} (h : b ∉ used) :
    freshKey b used = b := by
  unfold freshKey
  rw [List.range_succ_eq_map, List.find?_cons_of_pos]
  · rfl
  · simpa using h

theorem assignKeys_not_mem_used :
    ∀ (bs used : List String) (x : String), x ∈ assignKeys bs used → x ∉ used := by
  intro bs
  induction bs with
  | nil => intro used x hx; simp [assignKeys] at hx
  | cons b bs ih =>
    intro used x hx
    simp only [assignKeys, List.mem_cons] at hx
    rcases hx with h | h
    · rw [h]; exact freshKey_not_mem b used
    · have := ih (freshKey b used :: used) x h
      exact fun hmem => this (List.mem_cons_of_mem _ hmem)

theorem assignKeys_nodup : ∀ bs used : List String, (assignKeys bs used).Nodup := by
  intro bs
  induction bs with
  | nil => intro used; simp [assignKeys]
  | cons b bs ih =>
    intro used
    simp only [assignKeys, List.nodup_cons]
    refine ⟨fun hmem => ?_, ih _⟩
    have := assignKeys_not_mem_used bs (freshKey b used :: used) _ hmem
    exact this (List.mem_cons_self _ _)

theorem assignKeys_length : ∀ bs used : List String,
    (assignKeys bs used).length = bs.length := by
  intro bs
  induction bs with
  | nil => intro used; rfl
  | cons b bs ih => intro used; simp [assignKeys, ih]

theorem assignKeys_id_of_nodup : ∀ bs used : List String, bs.Nodup →
    (∀ b ∈ bs, b ∉ used) → assignKeys bs used = bs := by
  intro bs
  induction bs with
  | nil => intro used _ _; rfl
  | cons b bs ih =>
    intro used hnd hdisj
    have hb : b ∉ used := hdisj b (List.mem_cons_self b bs)
    have hfresh : freshKey b used = b := freshKey_of_not_mem hb
    simp only [assignKeys, hfresh, List.cons.injEq, true_and]
    refine ih (b :: used) (List.nodup_cons.mp hnd).2 ?_
    intro c hc
    simp only [List.mem_cons, not_or]
    exact ⟨fun hcb => (List.nodup_cons.mp hnd).1 (hcb ▸ hc),
      hdisj c (List.mem_cons_of_mem b hc)⟩

/-! ### Iterable expansion -/

/-- Modelled from the spec: an iterables annotation — the annotated node, the
iterated input field, and the candidate values. -/
structure IterAnnot where
  node : String
  field : String
  vals : List String
deriving DecidableEq

/-- The iterables annotations whose expansion applies to node `v`: those on a
node from which `v` is reachable (including `v` itself). -/
def iterAncestors (es : List GEdge) (annots : List IterAnnot) (v : String) :
    List IterAnnot :=
  annots.filter (fun a => reaches es a.node v)

/-- Modelled from the spec: the expansion tags of a node are the Cartesian
product of the candidate sets of all applicable iterables annotations; each
tag records `(annotated node, field, chosen value)`. -/
def tagProduct : List IterAnnot → List (List (String × String × String))
  | [] => [[]]
  | a :: rest =>
    a.vals.flatMap fun w => (tagProduct rest).map fun ts => (a.node, a.field, w) :: ts

/-- The expansion tags of the instances of node `v`. -/
def instTags (es : List GEdge) (annots : List IterAnnot) (v : String) :
    List (List (String × String × String)) :=
  tagProduct (iterAncestors es annots v)

/-- The sanitized token of one instance's full expansion tag. -/
def tagsKeyBase (ts : List (String × String × String)) : String :=
  String.join (ts.map fun t => tagToken t.2.1 t.2.2)

/-- The directory keys of the instances of node `v`, made collision-free. -/
def instKeys (es : List GEdge) (annots : List IterAnnot) (v : String) :
    List String :=
  assignKeys ((instTags es annots v).map tagsKeyBase) []

theorem tagProduct_length : ∀ l : List IterAnnot,
    (tagProduct l).length = (l.map (fun a => a.vals.length)).prod := by
  intro l
  induction l with
  | nil => rfl
  | cons a rest ih =>
    simp only [tagProduct, List.length_flatMap, List.map_map]
    have hconst : (List.length ∘ fun w =>
        List.map (fun ts => (a.node, a.field, w) :: ts) (tagProduct rest)) =
        fun _ : String => (tagProduct rest).length := by
      funext w
      simp
    rw [hconst, List.map_const', List.sum_replicate, smul_eq_mul, ih,
      List.map_cons, List.prod_cons]

/-- C2: For two iterables nodes with candidate-set sizes N and M, both upstream
of a common downstream node `d` independently (neither reaches the other), the
expansion duplicates `d` into exactly N × M instances — the Cartesian product
of the two candidate sets. -/
theorem independent_iterables_cartesian (es : List GEdge) (a1 a2 : IterAnnot)
    (d : String)
    (h1 : reaches es a1.node d = true) (h2 : reaches es a2.node d = true)
    (_hind1 : reaches es a1.node a2.node = false)
    (_hind2 : reaches es a2.node a1.node = false) :
    (instTags es [a1, a2] d).length = a1.vals.length * a2.vals.length := by
  unfold instTags iterAncestors
  simp [List.filter, h1, h2, tagProduct_length]

/-- The two-source fan-in used to exercise the Cartesian expansion: `u1` and
`u2` each feed `d` directly and are unrelated to one another. -/
def fanin_edges : List GEdge :=
  [⟨"u1", "o", "d", "i1"⟩, ⟨"u2", "o", "d", "i2"⟩]

/-- Witness for C2: candidate sets of sizes 2 and 3 expand the shared
downstream node into 6 instances. -/
theorem independent_iterables_cartesian_witness :
    (instTags fanin_edges
      [⟨"u1", "f1", ["a", "b"]⟩, ⟨"u2", "f2", ["p", "q", "r"]⟩] "d").length =
      (["a", "b"] : List String).length * (["p", "q", "r"] : List String).length :=
  independent_iterables_cartesian fanin_edges
    ⟨"u1", "f1", ["a", "b"]⟩ ⟨"u2", "f2", ["p", "q", "r"]⟩ "d"
    (by decide) (by decide) (by decide) (by decide)

/-- C3: For an iterables node with a candidate set of size N and a downstream
sink node `d`, the expansion plan contains exactly N instances of the sink,
and their directory keys are pairwise distinct strings — the key assignment is
collision-free for every candidate list, even when two distinct candidate
values sanitize to the same token, so no two instances share working
storage. -/
theorem iterables_sink_instances (es : List GEdge) (a : IterAnnot) (d : String)
    (h : reaches es a.node d = true) :
    (instTags es [a] d).length = a.vals.length ∧
    (instKeys es [a] d).Nodup := by
  constructor
  · unfold instTags iterAncestors
    simp [List.filter, h, tagProduct_length]
  · exact assignKeys_nodup _ _

/-- The one-source pipeline used to exercise sink expansion. -/
def pipeline_edges : List GEdge :=
  [⟨"inputs", "mri_file", "smooth", "in_file"⟩]

/-- Witness for C3: two candidate values — which sanitize to the same token —
still produce exactly 2 sink instances with distinct keys. -/
theorem iterables_sink_instances_witness :
    (instTags pipeline_edges [⟨"inputs", "mri_file", ["a/b", "a..b"]⟩]
      "smooth").length = (["a/b", "a..b"] : List String).length ∧
    (instKeys pipeline_edges [⟨"inputs", "mri_file", ["a/b", "a..b"]⟩]
      "smooth").Nodup :=
  iterables_sink_instances pipeline_edges
    ⟨"inputs", "mri_file", ["a/b", "a..b"]⟩ "smooth" (by decide)

/-- From the source's `ls smoothflow/_mri_file*` output: the absolute paths of
the two iterated input files. -/
def mri_files : List String :=
  ["/Users/mwaskom/Dropbox/Nipype_Concepts/data/T1-a.nii.gz",
   "/Users/mwaskom/Dropbox/Nipype_Concepts/data/T1-b.nii.gz"]

/-- Sanity check against the notebook's directory listing: the directory name
of the first instance is exactly the one shown in the source. -/
theorem tagToken_matches_notebook :
    tagToken "mri_file" "/Users/mwaskom/Dropbox/Nipype_Concepts/data/T1-a.nii.gz" =
      "_mri_file_..Users..mwaskom..Dropbox..Nipype_Concepts..data..T1-a.nii.gz" := by
  decide

/-- C10 counterexample: under the claimed naming rule — name equal to an
underscore, the field, an underscore, and the sanitized value, with nothing
else — the two distinct candidate values `a/b` and `a..b` receive the *same*
name, so the claim's "distinct candidate values yield distinct directory
names" fails as stated; the modelled engine instead appends a numeric
discriminator, so its keys deviate from the claimed pure form on this
input. -/
theorem dir_naming_counterexample :
    ("a/b" : String) ≠ "a..b" ∧
    tagToken "f" "a/b" = tagToken "f" "a..b" ∧
    dirKeys "f" ["a/b", "a..b"] ≠ [tagToken "f" "a/b", tagToken "f" "a..b"] := by
  refine ⟨by decide, by decide, by decide⟩

/-- C10 (amended): each expanded instance's directory name is the underscore,
the iterated field name, an underscore, and the sanitized candidate value —
exactly this whenever no two candidates share a sanitized token — and when
sanitized tokens collide a numeric discriminator is appended, so the keys of
distinct candidate values are always pairwise distinct. -/
theorem dir_naming_amended (f : String) (vals : List String)
    (h : (vals.map (tagToken f)).Nodup) :
    dirKeys f vals = vals.map (tagToken f) ∧
    ∀ ws : List String, (dirKeys f ws).Nodup ∧ (dirKeys f ws).length = ws.length := by
  constructor
  · exact assignKeys_id_of_nodup _ [] h (fun b _ => List.not_mem_nil b)
  · intro ws
    exact ⟨assignKeys_nodup _ _, by simp [dirKeys, assignKeys_length]⟩

/-- Witness for the amended C10, at the notebook's two file paths. -/
theorem dir_naming_amended_witness :
    (mri_files.map (tagToken "mri_file")).Nodup ∧
    (dirKeys "mri_file" mri_files = mri_files.map (tagToken "mri_file") ∧
      ∀ ws : List String,
        (dirKeys "mri_file" ws).Nodup ∧ (dirKeys "mri_file" ws).length = ws.length) :=
  ⟨by decide, dir_naming_amended "mri_file" mri_files (by decide)⟩

/-! ### Iterables binding on a node -/

/-- Modelled from the spec: a workflow node's input state — declared input
fields, direct value bindings, and an optional iterables annotation
`(field, candidate values)`. -/
structure WNode where
  inFields : List String
  bindings : List (String × String)
  iterables : Option (String × List String)
deriving DecidableEq

/-- The direct value bound on a field, if any. -/
def lookupBinding (n : WNode) (f : String) : Option String :=
  (n.bindings.find? (fun b => decide (b.1 = f))).map (·.2)

/-- Modelled from the spec: setting `.iterables = (field, values)` requires
`field` to be a declared input and clears any existing direct binding on that
field. -/
def setIterables (n : WNode) (f : String) (vs : List String) :
    Except EngineError WNode :=
  if f ∈ n.inFields then
    .ok { n with iterables := some (f, vs),
                 bindings := n.bindings.filter (fun b => decide (b.1 ≠ f)) }
  else .error .UnknownFieldError

/-- The values a run uses for field `f`: the iterables candidate values when
the annotation targets `f` (one instance-chain per value), otherwise the
direct binding, if any. -/
def runValuesFor (n : WNode) (f : String) : List String :=
  match n.iterables with
  | some (g, vs) =>
    if g = f then vs
    else match lookupBinding n f with
      | some v => [v]
      | none => []
  | none =>
    match lookupBinding n f with
    | some v => [v]
    | none => []

/-- C9: For every node and declared input field holding a direct value
binding, setting the iterables annotation on that field succeeds and clears
the direct binding, so a subsequent run uses exactly the iterables candidate
values for that field — one instance-chain per candidate value — and not the
previously bound direct value. -/
theorem iterables_clears_direct_binding (n : WNode) (f v : String)
    (vs : List String) (hf : f ∈ n.inFields) (_hb : lookupBinding n f = some v) :
    ∃ n', setIterables n f vs = .ok n' ∧
      lookupBinding n' f = none ∧ runValuesFor n' f = vs := by
  have hset : setIterables n f vs =
      .ok { n with iterables := some (f, vs)
                   bindings := n.bindings.filter (fun b => decide (b.1 ≠ f)) } := by
    unfold setIterables
    rw [if_pos hf]
  refine ⟨_, hset, ?_, ?_⟩
  · unfold lookupBinding
    have hnone : (n.bindings.filter (fun b => decide (b.1 ≠ f))).find?
        (fun b => decide (b.1 = f)) = none := by
      rw [List.find?_eq_none]
      intro b hbmem
      have h2 : b.1 ≠ f := by
        have := (List.mem_filter.mp hbmem).2
        simpa using this
      simpa using h2
    simp [hnone]
  · unfold runValuesFor
    simp

/-- Witness for C9: a node with `mri_file` directly bound; setting iterables
on `mri_file` clears the binding and the run uses only the candidate list. -/
theorem iterables_clears_direct_binding_witness :
    ("mri_file" ∈ (WNode.mk ["mri_file"] [("mri_file", "data/T1-a.nii.gz")]
      none).inFields) ∧
    ∃ n', setIterables (WNode.mk ["mri_file"] [("mri_file", "data/T1-a.nii.gz")]
        none) "mri_file" mri_files = .ok n' ∧
      lookupBinding n' "mri_file" = none ∧ runValuesFor n' "mri_file" = mri_files :=
  ⟨by decide,
    iterables_clears_direct_binding
      (WNode.mk ["mri_file"] [("mri_file", "data/T1-a.nii.gz")] none)
      "mri_file" "data/T1-a.nii.gz" mri_files (by decide) rfl⟩

/-! ### Execution coordinator -/

/-- Terminal state of a node instance, from the spec: `Success`, `Failed`, and
`Skipped(UpstreamFailed)`. -/
inductive TState where
  | success
  | failed
  | skippedUpstreamFailed
deriving DecidableEq

/-- An execution plan: instances in topological order, each with the list of
instances it depends on. -/
abbrev Plan := List (String × List String)

/-- The observable outcome of one run: per-instance terminal states, the
instances whose executor was invoked, and the directories written. -/
structure RunResult where
  states : List (String × TState)
  invocations : List String
  writes : List String
deriving DecidableEq

/-- The terminal state recorded for instance `n`, if any. -/
def lookupState (sts : List (String × TState)) (n : String) : Option TState :=
  (sts.find? (fun p => decide (p.1 = n))).map (·.2)

/-- An instance is ready when every instance it depends on has a success
result. -/
def ready (sts : List (String × TState)) (ds : List String) : Bool :=
  ds.all (fun d => decide (lookupState sts d = some TState.success))

/-- Modelled from the spec: process one instance.  A ready cached instance is
treated as already computed and skippable: its directory is not rewritten and
its executor is not invoked.  A ready uncached instance is submitted: on
executor success its outputs are persisted, on executor failure it is marked
failed.  A non-ready instance is never submitted and ends in
`Skipped(UpstreamFailed)`. -/
def stepInst (exec cached : String → Bool) (acc : RunResult) (n : String)
    (ds : List String) : RunResult :=
  if ready acc.states ds then
    if cached n then
      { acc with states := acc.states ++ [(n, TState.success)] }
    else if exec n then
      { states := acc.states ++ [(n, TState.success)]
        invocations := acc.invocations ++ [n]
        writes := acc.writes ++ [n] }
    else
      { acc with states := acc.states ++ [(n, TState.failed)]
                 invocations := acc.invocations ++ [n] }
  else
    { acc with states := acc.states ++ [(n, TState.skippedUpstreamFailed)] }

/-- Walk the plan in dependency order, accumulating the run result. -/
def runAux (exec cached : String → Bool) : RunResult → Plan → RunResult
  | acc, [] => acc
  | acc, (n, ds) :: rest => runAux exec cached (stepInst exec cached acc n ds) rest

/-- Modelled from the spec: execute a whole plan from an empty state. -/
def runPlan (plan : Plan) (exec cached : String → Bool) : RunResult :=
  runAux exec cached ⟨[], [], []⟩ plan

/-- The aggregate success flag: true iff no instance failed. -/
def overallSuccess (r : RunResult) : Bool :=
  r.states.all (fun q => decide (q.2 ≠ TState.failed))

/-- Well-formedness of a plan: instance names are fresh and every dependency
points to an earlier instance. -/
def wfAux : List String → Plan → Bool
  | _, [] => true
  | seen, (n, ds) :: rest =>
    !decide (n ∈ seen) && ds.all (fun d => decide (d ∈ seen)) && wfAux (n :: seen) rest

/-- A plan is well-formed when its instances are topologically ordered with
unique names. -/
def wfPlan (p : Plan) : Bool := wfAux [] p

/-- Transitive dependency between instances of a plan. -/
inductive DependsOn (p : Plan) : String → String → Prop
  | direct {n : String} {ds : List String} {d : String} :
      (n, ds) ∈ p → d ∈ ds → DependsOn p n d
  | trans {n m d : String} : DependsOn p n m → DependsOn p m d → DependsOn p n d

theorem list_all_congr {α : Type} {l : List α} {p q : α → Bool}
    (h : ∀ a ∈ l, p a = q a) : l.all p = l.all q := by
  induction l with
  | nil => rfl
  | cons a as ih =>
    simp only [List.all_cons]
    rw [h a (List.mem_cons_self a as), ih (fun x hx => h x (List.mem_cons_of_mem a hx))]

theorem lookupState_append_left {sts sts2 : List (String × TState)} {n : String}
    {v : TState} (h : lookupState sts n = some v) :
    lookupState (sts ++ sts2) n = some v := by
  unfold lookupState at *
  rw [List.find?_append]
  cases hf : sts.find? (fun p => decide (p.1 = n)) with
  | none => rw [hf] at h; simp at h
  | some q => rw [hf] at h; simpa using h

theorem lookupState_append_right {sts : List (String × TState)} {n : String}
    (h : lookupState sts n = none) (v : TState) :
    lookupState (sts ++ [(n, v)]) n = some v := by
  unfold lookupState at *
  rw [List.find?_append]
  cases hf : sts.find? (fun p => decide (p.1 = n)) with
  | none => simp [List.find?]
  | some q => rw [hf] at h; simp at h

theorem lookupState_append_single_isSome {sts : List (String × TState)}
    {n m : String} {v : TState}
    (h : (lookupState (sts ++ [(m, v)]) n).isSome = true) :
    (lookupState sts n).isSome = true ∨ n = m := by
  unfold lookupState at *
  rw [List.find?_append] at h
  cases hf : sts.find? (fun p => decide (p.1 = n)) with
  | some q => left; simp [hf]
  | none =>
    right
    rw [hf] at h
    simp only [Option.none_or] at h
    cases hm : List.find? (fun p => decide (p.1 = n)) [(m, v)] with
    | none => rw [hm] at h; simp at h
    | some q =>
      have := List.find?_some hm
      have hqmem := List.mem_of_find?_eq_some hm
      simp only [List.mem_singleton] at hqmem
      rw [hqmem] at this
      have hmn : m = n := by simpa using this
      exact hmn.symm

theorem stepInst_states (exec cached : String → Bool) (acc : RunResult)
    (n : String) (ds : List String) :
    ∃ st : TState, (stepInst exec cached acc n ds).states = acc.states ++ [(n, st)] := by
  unfold stepInst
  by_cases h1 : ready acc.states ds
  · by_cases h2 : cached n
    · exact ⟨TState.success, by simp [h1, h2]⟩
    · by_cases h3 : exec n
      · exact ⟨TState.success, by simp [h1, h2, h3]⟩
      · exact ⟨TState.failed, by simp [h1, h2, h3]⟩
  · exact ⟨TState.skippedUpstreamFailed, by simp [h1]⟩

theorem runAux_lookup_stable (exec cached : String → Bool) :
    ∀ (p : Plan) (acc : RunResult) (n : String) (v : TState),
    lookupState acc.states n = some v →
    lookupState (runAux exec cached acc p).states n = some v := by
  intro p
  induction p with
  | nil => intro acc n v h; exact h
  | cons hd rest ih =>
    intro acc n v h
    obtain ⟨nd, ds⟩ := hd
    simp only [runAux]
    apply ih
    obtain ⟨st, hst⟩ := stepInst_states exec cached acc nd ds
    rw [hst]
    exact lookupState_append_left h

/-- The decision the coordinator takes for instance `n` with dependencies
`ds`, read off a run result. -/
def decision (R : RunResult) (exec cached : String → Bool) (n : String)
    (ds : List String) : TState :=
  if ready R.states ds then
    if cached n then TState.success
    else if exec n then TState.success
    else TState.failed
  else TState.skippedUpstreamFailed

theorem ready_congr {s1 s2 : List (String × TState)} {ds : List String}
    (h : ∀ d ∈ ds, lookupState s1 d = lookupState s2 d) :
    ready s1 ds = ready s2 ds := by
  unfold ready
  exact list_all_congr (fun d hd => by rw [h d hd])

theorem stepInst_lookup_self (exec cached : String → Bool) (acc : RunResult)
    (n : String) (ds : List String) (h : lookupState acc.states n = none) :
    lookupState (stepInst exec cached acc n ds).states n =
      some (decision acc exec cached n ds) := by
  unfold stepInst decision
  by_cases h1 : ready acc.states ds
  · by_cases h2 : cached n
    · simp only [h1, h2, if_true]
      exact lookupState_append_right h _
    · by_cases h3 : exec n
      · simp only [h1, h2, h3, if_true, if_false]
        exact lookupState_append_right h _
      · simp only [h1, h2, h3, if_true, if_false]
        exact lookupState_append_right h _
  · simp only [h1, if_false]
    exact lookupState_append_right h _

theorem runAux_char (exec cached : String → Bool) :
    ∀ (p : Plan) (seen : List String) (acc : RunResult),
    wfAux seen p = true →
    (∀ m, m ∈ seen ↔ (lookupState acc.states m).isSome = true) →
    ∀ n ds, (n, ds) ∈ p →
      lookupState (runAux exec cached acc p).states n =
        some (decision (runAux exec cached acc p) exec cached n ds) := by
  intro p
  induction p with
  | nil => intro seen acc _ _ n ds hmem; simp at hmem
  | cons hd rest ih =>
    intro seen acc hwf hinv n ds hmem
    obtain ⟨n0, ds0⟩ := hd
    simp only [wfAux, Bool.and_eq_true, Bool.not_eq_true',
      decide_eq_false_iff_not] at hwf
    obtain ⟨⟨hn0, hds0⟩, hwfrest⟩ := hwf
    have hds0' : ∀ d ∈ ds0, d ∈ seen :=
      fun d hd => of_decide_eq_true (List.all_eq_true.mp hds0 d hd)
    have hlook0 : lookupState acc.states n0 = none := by
      rcases hlk : lookupState acc.states n0 with _ | v
      · rfl
      · exact absurd ((hinv n0).mpr (by simp [hlk])) hn0
    obtain ⟨st0, hst0⟩ := stepInst_states exec cached acc n0 ds0
    have hinv' : ∀ m, m ∈ n0 :: seen ↔
        (lookupState (stepInst exec cached acc n0 ds0).states m).isSome = true := by
      intro m
      constructor
      · intro hm
        rcases List.mem_cons.mp hm with hm | hm
        · subst hm
          rw [hst0, lookupState_append_right hlook0]
          rfl
        · have h1 := (hinv m).mp hm
          rcases hsome : lookupState acc.states m with _ | v
          · rw [hsome] at h1; simp at h1
          · rw [hst0, lookupState_append_left hsome]
            rfl
      · intro hm
        rw [hst0] at hm
        rcases lookupState_append_single_isSome hm with h | h
        · exact List.mem_cons_of_mem _ ((hinv m).mpr h)
        · rw [h]; exact List.mem_cons_self _ _
    have hdepstab : ∀ d ∈ ds0,
        lookupState (runAux exec cached (stepInst exec cached acc n0 ds0) rest).states d =
          lookupState acc.states d := by
      intro d hd
      have hsome := (hinv d).mp (hds0' d hd)
      rcases hlkd : lookupState acc.states d with _ | v
      · rw [hlkd] at hsome; simp at hsome
      · have hstep : lookupState (stepInst exec cached acc n0 ds0).states d = some v := by
          rw [hst0]; exact lookupState_append_left hlkd
        rw [runAux_lookup_stable exec cached rest _ d v hstep]
    rcases List.mem_cons.mp hmem with heq | hmemrest
    · have hn : n = n0 := congrArg Prod.fst heq
      have hds : ds = ds0 := congrArg Prod.snd heq
      subst hn
      subst hds
      simp only [runAux]
      have hself := stepInst_lookup_self exec cached acc n ds hlook0
      rw [runAux_lookup_stable exec cached rest _ n _ hself]
      congr 1
      unfold decision
      rw [ready_congr (fun d hd => (hdepstab d hd).symm)]
    · simp only [runAux]
      exact ih (n0 :: seen) _ hwfrest hinv' n ds hmemrest

theorem runAux_invocations (exec cached : String → Bool) :
    ∀ (p : Plan) (seen : List String) (acc : RunResult),
    wfAux seen p = true →
    (∀ m, m ∈ seen ↔ (lookupState acc.states m).isSome = true) →
    ∀ n, n ∈ (runAux exec cached acc p).invocations →
      n ∈ acc.invocations ∨ ∃ ds, (n, ds) ∈ p ∧
        ready (runAux exec cached acc p).states ds = true := by
  intro p
  induction p with
  | nil => intro seen acc _ _ n hn; exact Or.inl hn
  | cons hd rest ih =>
    intro seen acc hwf hinv n hn
    obtain ⟨n0, ds0⟩ := hd
    simp only [wfAux, Bool.and_eq_true, Bool.not_eq_true',
      decide_eq_false_iff_not] at hwf
    obtain ⟨⟨hn0, hds0⟩, hwfrest⟩ := hwf
    have hds0' : ∀ d ∈ ds0, d ∈ seen :=
      fun d hd => of_decide_eq_true (List.all_eq_true.mp hds0 d hd)
    have hlook0 : lookupState acc.states n0 = none := by
      rcases hlk : lookupState acc.states n0 with _ | v
      · rfl
      · exact absurd ((hinv n0).mpr (by simp [hlk])) hn0
    obtain ⟨st0, hst0⟩ := stepInst_states exec cached acc n0 ds0
    have hinv' : ∀ m, m ∈ n0 :: seen ↔
        (lookupState (stepInst exec cached acc n0 ds0).states m).isSome = true := by
      intro m
      constructor
      · intro hm
        rcases List.mem_cons.mp hm with hm | hm
        · subst hm
          rw [hst0, lookupState_append_right hlook0]
          rfl
        · have h1 := (hinv m).mp hm
          rcases hsome : lookupState acc.states m with _ | v
          · rw [hsome] at h1; simp at h1
          · rw [hst0, lookupState_append_left hsome]
            rfl
      · intro hm
        rw [hst0] at hm
        rcases lookupState_append_single_isSome hm with h | h
        · exact List.mem_cons_of_mem _ ((hinv m).mpr h)
        · rw [h]; exact List.mem_cons_self _ _
    have hdepstab : ∀ d ∈ ds0,
        lookupState (runAux exec cached (stepInst exec cached acc n0 ds0) rest).states d =
          lookupState acc.states d := by
      intro d hd
      have hsome := (hinv d).mp (hds0' d hd)
      rcases hlkd : lookupState acc.states d with _ | v
      · rw [hlkd] at hsome; simp at hsome
      · have hstep : lookupState (stepInst exec cached acc n0 ds0).states d = some v := by
          rw [hst0]; exact lookupState_append_left hlkd
        rw [runAux_lookup_stable exec cached rest _ d v hstep]
    simp only [runAux] at hn ⊢
    rcases ih (n0 :: seen) _ hwfrest hinv' n hn with hacc | ⟨ds, hds, hready⟩
    · by_cases hr : ready acc.states ds0
      · by_cases hc : cached n0
        · have : (stepInst exec cached acc n0 ds0).invocations = acc.invocations := by
            simp [stepInst, hr, hc]
          rw [this] at hacc
          exact Or.inl hacc
        · have hstepinv : (stepInst exec cached acc n0 ds0).invocations =
              acc.invocations ++ [n0] := by
            by_cases he : exec n0
            · simp [stepInst, hr, hc, he]
            · simp [stepInst, hr, hc, he]
          rw [hstepinv] at hacc
          rcases List.mem_append.mp hacc with h | h
          · exact Or.inl h
          · simp only [List.mem_singleton] at h
            subst h
            refine Or.inr ⟨ds0, List.mem_cons_self _ _, ?_⟩
            rw [ready_congr (fun d hd => hdepstab d hd)]
            exact hr
      · have : (stepInst exec cached acc n0 ds0).invocations = acc.invocations := by
          simp [stepInst, hr]
        rw [this] at hacc
        exact Or.inl hacc
    · exact Or.inr ⟨ds, List.mem_cons_of_mem _ hds, by simpa [runAux] using hready⟩

theorem empty_inv : ∀ m : String, m ∈ ([] : List String) ↔
    (lookupState (RunResult.mk [] [] []).states m).isSome = true := by
  intro m
  simp [lookupState]

theorem depends_not_success_skipped (plan : Plan) (exec cached : String → Bool)
    (hwf : wfPlan plan = true) :
    ∀ b a, DependsOn plan b a →
      lookupState (runPlan plan exec cached).states a ≠ some TState.success →
      lookupState (runPlan plan exec cached).states b =
        some TState.skippedUpstreamFailed := by
  intro b a hdep
  induction hdep with
  | @direct n ds d hmem hd =>
    intro hne
    have hchar := runAux_char exec cached plan [] ⟨[], [], []⟩ hwf empty_inv _ _ hmem
    have hready : ready (runPlan plan exec cached).states ds = false := by
      by_contra hc
      have hr := eq_true_of_ne_false hc
      unfold ready at hr
      have := List.all_eq_true.mp hr _ hd
      exact hne (of_decide_eq_true this)
    simp only [runPlan] at hready ⊢
    rw [hchar]
    unfold decision
    rw [hready]
    rfl
  | trans h1 h2 ih1 ih2 =>
    intro hne
    have hm := ih2 hne
    apply ih1
    rw [hm]
    simp

theorem skipped_not_invoked (plan : Plan) (exec cached : String → Bool)
    (hwf : wfPlan plan = true) (b : String)
    (hskip : lookupState (runPlan plan exec cached).states b =
      some TState.skippedUpstreamFailed) :
    b ∉ (runPlan plan exec cached).invocations := by
  intro hb
  rcases runAux_invocations exec cached plan [] ⟨[], [], []⟩ hwf empty_inv b hb
    with h | ⟨ds, hds, hready⟩
  · exact absurd h (List.not_mem_nil b)
  · have hchar := runAux_char exec cached plan [] ⟨[], [], []⟩ hwf empty_inv _ _ hds
    have hskip' : lookupState (runAux exec cached ⟨[], [], []⟩ plan).states b =
        some TState.skippedUpstreamFailed := hskip
    have heq := Option.some.inj (hskip'.symm.trans hchar)
    unfold decision at heq
    rw [hready] at heq
    by_cases hc : cached b
    · rw [if_pos rfl, if_pos hc] at heq
      exact absurd heq (by simp)
    · rw [if_pos rfl, if_neg hc] at heq
      by_cases he : exec b
      · rw [if_pos he] at heq
        exact absurd heq (by simp)
      · rw [if_neg he] at heq
        exact absurd heq (by simp)

/-- An instance is fully runnable when its own executor-or-cache succeeds and
so does that of everything it transitively depends on. -/
def goodAll (plan : Plan) (exec cached : String → Bool) (m : String) : Prop :=
  (cached m || exec m) = true ∧
  ∀ d, DependsOn plan m d → (cached d || exec d) = true

theorem runAux_good (plan : Plan) (exec cached : String → Bool) :
    ∀ (p : Plan) (seen : List String) (acc : RunResult),
    wfAux seen p = true →
    (∀ x ∈ p, x ∈ plan) →
    (∀ m, m ∈ seen ↔ (lookupState acc.states m).isSome = true) →
    (∀ m, m ∈ seen → goodAll plan exec cached m →
      lookupState acc.states m = some TState.success) →
    ∀ c ds, (c, ds) ∈ p → goodAll plan exec cached c →
      lookupState (runAux exec cached acc p).states c = some TState.success := by
  intro p
  induction p with
  | nil => intro seen acc _ _ _ _ c ds hmem _; simp at hmem
  | cons hd rest ih =>
    intro seen acc hwf hsub hinv hgood c ds hmem hc
    obtain ⟨n0, ds0⟩ := hd
    simp only [wfAux, Bool.and_eq_true, Bool.not_eq_true',
      decide_eq_false_iff_not] at hwf
    obtain ⟨⟨hn0, hds0⟩, hwfrest⟩ := hwf
    have hds0' : ∀ d ∈ ds0, d ∈ seen :=
      fun d hd => of_decide_eq_true (List.all_eq_true.mp hds0 d hd)
    have hlook0 : lookupState acc.states n0 = none := by
      rcases hlk : lookupState acc.states n0 with _ | v
      · rfl
      · exact absurd ((hinv n0).mpr (by simp [hlk])) hn0
    obtain ⟨st0, hst0⟩ := stepInst_states exec cached acc n0 ds0
    have hinv' : ∀ m, m ∈ n0 :: seen ↔
        (lookupState (stepInst exec cached acc n0 ds0).states m).isSome = true := by
      intro m
      constructor
      · intro hm
        rcases List.mem_cons.mp hm with hm | hm
        · subst hm
          rw [hst0, lookupState_append_right hlook0]
          rfl
        · have h1 := (hinv m).mp hm
          rcases hsome : lookupState acc.states m with _ | v
          · rw [hsome] at h1; simp at h1
          · rw [hst0, lookupState_append_left hsome]
            rfl
      · intro hm
        rw [hst0] at hm
        rcases lookupState_append_single_isSome hm with h | h
        · exact List.mem_cons_of_mem _ ((hinv m).mpr h)
        · rw [h]; exact List.mem_cons_self _ _
    have hn0good : goodAll plan exec cached n0 →
        lookupState (stepInst exec cached acc n0 ds0).states n0 =
          some TState.success := by
      intro hg
      have hready : ready acc.states ds0 = true := by
        unfold ready
        rw [List.all_eq_true]
        intro d hd
        have hdep : DependsOn plan n0 d :=
          DependsOn.direct (hsub _ (List.mem_cons_self _ _)) hd
        have hgd : goodAll plan exec cached d :=
          ⟨hg.2 d hdep, fun e he => hg.2 e (DependsOn.trans hdep he)⟩
        have := hgood d (hds0' d hd) hgd
        simp [this]
      unfold stepInst
      rw [if_pos hready]
      by_cases hcch : cached n0
      · rw [if_pos hcch]
        exact lookupState_append_right hlook0 _
      · rw [if_neg hcch]
        have hex : exec n0 = true := by
          have hor : cached n0 = true ∨ exec n0 = true := by
            have h1 := hg.1
            simpa using h1
          rcases hor with h | h
          · exact absurd h hcch
          · exact h
        rw [if_pos hex]
        exact lookupState_append_right hlook0 _
    have hgood' : ∀ m, m ∈ n0 :: seen → goodAll plan exec cached m →
        lookupState (stepInst exec cached acc n0 ds0).states m =
          some TState.success := by
      intro m hm hg
      rcases List.mem_cons.mp hm with hm | hm
      · subst hm; exact hn0good hg
      · rw [hst0]
        exact lookupState_append_left (hgood m hm hg)
    rcases List.mem_cons.mp hmem with heq | hmemrest
    · have hn : c = n0 := congrArg Prod.fst heq
      subst hn
      simp only [runAux]
      exact runAux_lookup_stable exec cached rest _ c _ (hn0good hc)
    · simp only [runAux]
      exact ih (n0 :: seen) _ hwfrest
        (fun x hx => hsub x (List.mem_cons_of_mem _ hx)) hinv' hgood' c ds hmemrest hc

theorem overallSuccess_iff (r : RunResult) :
    overallSuccess r = true ↔ ∀ n st, (n, st) ∈ r.states → st ≠ TState.failed := by
  unfold overallSuccess
  rw [List.all_eq_true]
  constructor
  · intro h n st hmem
    exact of_decide_eq_true (h (n, st) hmem)
  · intro h q hq
    exact decide_eq_true (h q.1 q.2 hq)

/-- C7: For every well-formed execution plan, (i) every instance transitively
depending on a failed instance is never submitted — it is absent from the
invocation list — and ends in `Skipped(UpstreamFailed)`; (ii) every instance
in an unrelated branch, whose own executor-or-cache and those of all its
transitive dependencies succeed, still reaches `Success`; and (iii) the
aggregate success flag is true iff no instance failed. -/
theorem failure_isolated (plan : Plan) (exec cached : String → Bool)
    (hwf : wfPlan plan = true) :
    (∀ a b, lookupState (runPlan plan exec cached).states a = some TState.failed →
      DependsOn plan b a →
      lookupState (runPlan plan exec cached).states b =
        some TState.skippedUpstreamFailed ∧
      b ∉ (runPlan plan exec cached).invocations) ∧
    (∀ c ds, (c, ds) ∈ plan → (cached c || exec c) = true →
      (∀ d, DependsOn plan c d → (cached d || exec d) = true) →
      lookupState (runPlan plan exec cached).states c = some TState.success) ∧
    (overallSuccess (runPlan plan exec cached) = true ↔
      ∀ n st, (n, st) ∈ (runPlan plan exec cached).states → st ≠ TState.failed) := by
  refine ⟨?_, ?_, overallSuccess_iff _⟩
  · intro a b hfail hdep
    have hskip := depends_not_success_skipped plan exec cached hwf b a hdep
      (by rw [hfail]; simp)
    exact ⟨hskip, skipped_not_invoked plan exec cached hwf b hskip⟩
  · intro c ds hmem h1 h2
    exact runAux_good plan exec cached plan [] ⟨[], [], []⟩ hwf (fun x hx => hx)
      empty_inv (fun m hm => absurd hm (List.not_mem_nil m)) c ds hmem ⟨h1, h2⟩

/-- A three-instance demonstration plan: `a` and `c` are independent roots,
`b` depends on `a`. -/
def demo_plan : Plan := [("a", []), ("b", ["a"]), ("c", [])]

/-- Executor outcomes for the demonstration run: `a` fails, the rest
succeed. -/
def demo_exec : String → Bool := fun n => decide (n ≠ "a")

/-- No cached directories in the demonstration run. -/
def demo_cached : String → Bool := fun _ => false

/-- Witness for C7, on the demonstration plan where `a` fails. -/
theorem failure_isolated_witness :
    wfPlan demo_plan = true ∧
    ((∀ a b,
      lookupState (runPlan demo_plan demo_exec demo_cached).states a =
        some TState.failed →
      DependsOn demo_plan b a →
      lookupState (runPlan demo_plan demo_exec demo_cached).states b =
        some TState.skippedUpstreamFailed ∧
      b ∉ (runPlan demo_plan demo_exec demo_cached).invocations) ∧
    (∀ c ds, (c, ds) ∈ demo_plan → (demo_cached c || demo_exec c) = true →
      (∀ d, DependsOn demo_plan c d → (demo_cached d || demo_exec d) = true) →
      lookupState (runPlan demo_plan demo_exec demo_cached).states c =
        some TState.success) ∧
    (overallSuccess (runPlan demo_plan demo_exec demo_cached) = true ↔
      ∀ n st, (n, st) ∈ (runPlan demo_plan demo_exec demo_cached).states →
        st ≠ TState.failed)) :=
  ⟨by decide, failure_isolated demo_plan demo_exec demo_cached (by decide)⟩

theorem runAux_all_cached (exec cached : String → Bool) :
    ∀ (p : Plan) (seen : List String) (acc : RunResult),
    wfAux seen p = true →
    (∀ m, m ∈ seen ↔ (lookupState acc.states m).isSome = true) →
    (∀ m, m ∈ seen → lookupState acc.states m = some TState.success) →
    (∀ q ∈ p, cached q.1 = true) →
    runAux exec cached acc p =
      { acc with states := acc.states ++ p.map (fun q => (q.1, TState.success)) } := by
  intro p
  induction p with
  | nil =>
    intro seen acc _ _ _ _
    simp [runAux]
  | cons hd rest ih =>
    intro seen acc hwf hinv hsucc hcache
    obtain ⟨n0, ds0⟩ := hd
    simp only [wfAux, Bool.and_eq_true, Bool.not_eq_true',
      decide_eq_false_iff_not] at hwf
    obtain ⟨⟨hn0, hds0⟩, hwfrest⟩ := hwf
    have hds0' : ∀ d ∈ ds0, d ∈ seen :=
      fun d hd => of_decide_eq_true (List.all_eq_true.mp hds0 d hd)
    have hlook0 : lookupState acc.states n0 = none := by
      rcases hlk : lookupState acc.states n0 with _ | v
      · rfl
      · exact absurd ((hinv n0).mpr (by simp [hlk])) hn0
    have hready : ready acc.states ds0 = true := by
      unfold ready
      rw [List.all_eq_true]
      intro d hd
      simp [hsucc d (hds0' d hd)]
    have hc0 : cached n0 = true := hcache (n0, ds0) (List.mem_cons_self _ _)
    have hstep : stepInst exec cached acc n0 ds0 =
        { acc with states := acc.states ++ [(n0, TState.success)] } := by
      unfold stepInst
      rw [if_pos hready, if_pos hc0]
    have hinv' : ∀ m, m ∈ n0 :: seen ↔
        (lookupState (stepInst exec cached acc n0 ds0).states m).isSome = true := by
      intro m
      rw [hstep]
      constructor
      · intro hm
        rcases List.mem_cons.mp hm with hm | hm
        · subst hm
          rw [lookupState_append_right hlook0]
          rfl
        · have h1 := (hinv m).mp hm
          rcases hsome : lookupState acc.states m with _ | v
          · rw [hsome] at h1; simp at h1
          · rw [lookupState_append_left hsome]
            rfl
      · intro hm
        rcases lookupState_append_single_isSome hm with h | h
        · exact List.mem_cons_of_mem _ ((hinv m).mpr h)
        · rw [h]; exact List.mem_cons_self _ _
    have hsucc' : ∀ m, m ∈ n0 :: seen →
        lookupState (stepInst exec cached acc n0 ds0).states m =
          some TState.success := by
      intro m hm
      rw [hstep]
      rcases List.mem_cons.mp hm with hm | hm
      · subst hm
        exact lookupState_append_right hlook0 _
      · exact lookupState_append_left (hsucc m hm)
    simp only [runAux]
    rw [ih (n0 :: seen) _ hwfrest hinv' hsucc'
      (fun q hq => hcache q (List.mem_cons_of_mem _ hq)), hstep]
    simp [List.append_assoc]

/-- C8: For every well-formed plan in which every instance's working directory
already holds a completed result (every instance is cached), re-executing the
plan invokes zero executors, writes no directory — so no existing populated
directory is overwritten — marks every instance `Success` on the cache-hit
fast path, and still returns overall success. -/
theorem cache_hit_rerun (plan : Plan) (exec cached : String → Bool)
    (hwf : wfPlan plan = true) (hcache : ∀ q ∈ plan, cached q.1 = true) :
    (runPlan plan exec cached).invocations = [] ∧
    (runPlan plan exec cached).writes = [] ∧
    (runPlan plan exec cached).states =
      plan.map (fun q => (q.1, TState.success)) ∧
    overallSuccess (runPlan plan exec cached) = true := by
  have hrun := runAux_all_cached exec cached plan [] ⟨[], [], []⟩ hwf empty_inv
    (fun m hm => absurd hm (List.not_mem_nil m)) hcache
  have hrun' : runPlan plan exec cached =
      { states := plan.map (fun q => (q.1, TState.success))
        invocations := []
        writes := [] } := by
    rw [runPlan, hrun]
    simp
  rw [hrun']
  refine ⟨rfl, rfl, rfl, ?_⟩
  unfold overallSuccess
  rw [List.all_eq_true]
  intro q hq
  simp only [List.mem_map] at hq
  obtain ⟨x, _, hx⟩ := hq
  rw [← hx]
  simp

/-- Witness for C8: re-running the demonstration plan with every directory
cached performs no invocation, writes nothing, and reports overall success. -/
theorem cache_hit_rerun_witness :
    wfPlan demo_plan = true ∧ (∀ q ∈ demo_plan, (fun _ : String => true) q.1 = true) ∧
    ((runPlan demo_plan demo_exec (fun _ => true)).invocations = [] ∧
    (runPlan demo_plan demo_exec (fun _ => true)).writes = [] ∧
    (runPlan demo_plan demo_exec (fun _ => true)).states =
      demo_plan.map (fun q => (q.1, TState.success)) ∧
    overallSuccess (runPlan demo_plan demo_exec (fun _ => true)) = true) :=
  ⟨by decide, fun q _ => rfl,
    cache_hit_rerun demo_plan demo_exec (fun _ => true) (by decide) (fun q _ => rfl)⟩
